import Mathlib

/-!
Verification of the stu repository: the SFTP sync engine (src/sftp_tool.py)
and the sorting module (src/src/quicksort.py).

Strings manipulated by the Python code are modelled as lists of characters
(`Str`).  The remote SFTP session is modelled by an explicit state (the set of
remote paths that exist) together with a trace of the calls issued against the
session.  Local and remote directory trees are modelled as inductive trees.
-/

/-- Python strings are modelled as lists of characters. -/
abbrev Str := List Char

/-- `s.replace("\\", "/")` on a string. -/
def replaceBS (s : Str) : Str := s.map (fun c => if c = '\\' then '/' else c)

/-- One folding step of `posixpath.join`: if the next component is absolute it
replaces the accumulated path; otherwise it is appended, inserting a `/`
separator unless the accumulated path is empty or already ends in `/`. -/
def posixJoin1 (path b : Str) : Str :=
  if b.head? = some '/' then b
  else if path = [] ∨ path.getLast? = some '/' then path ++ b
  else path ++ '/' :: b

/-- `posixpath.join(a, *p)`. -/
def posixJoin (a : Str) (p : List Str) : Str := p.foldl posixJoin1 a

/-- `_join_remote` from src/sftp_tool.py: drop empty fragments, join the rest
with `posixpath.join`, then replace every backslash by `/`. -/
def join_remote (parts : List Str) : Str :=
  let cleaned := parts.filter (fun p => !p.isEmpty)
  match cleaned with
  | [] => []
  | c :: cs => replaceBS (posixJoin c cs)

/-- `posixpath.dirname`: take everything up to (and including) the last `/`,
then strip trailing slashes unless the head consists of slashes only. -/
def dirname (p : Str) : Str :=
  let i := p.length - (p.reverse.takeWhile (fun c => c != '/')).length
  let head := p.take i
  if !head.isEmpty && head.any (fun c => c != '/') then
    (head.reverse.dropWhile (fun c => c == '/')).reverse
  else head

/-- Remote calls issued by `_ensure_remote_dir`. -/
inductive RC where
  | stat (p : Str)
  | mkdir (p : Str)
deriving DecidableEq, Repr

/-- Is this call a directory-creation call? -/
def RC.isCreate : RC → Bool
  | .mkdir _ => true
  | _ => false

/-- The ancestor-collecting while-loop of `_ensure_remote_dir`: starting from
`path`, repeatedly take `posixpath.dirname` until reaching `""` or `"/"`,
collecting every intermediate path (leaf first).  The fuel argument bounds the
number of iterations; `dirname` never lengthens its argument, so
`length + 1` steps of fuel are enough whenever the Python loop terminates. -/
def collectParts : Nat → Str → List Str
  | 0, _ => []
  | fuel + 1, path =>
    if path = [] ∨ path = ['/'] then [] else path :: collectParts fuel (dirname path)

/-- The stat/mkdir loop of `_ensure_remote_dir` over the root-to-leaf ancestor
list.  `fs` is the set of paths that exist on the remote side: `stat` succeeds
exactly on members of `fs`, and `mkdir` adds a path to `fs`. -/
def ensureLoop (fs : List Str) : List Str → List Str × List RC
  | [] => (fs, [])
  | d :: rest =>
    if d ∈ fs then
      let r := ensureLoop fs rest
      (r.1, RC.stat d :: r.2)
    else
      let r := ensureLoop (d :: fs) rest
      (r.1, RC.stat d :: RC.mkdir d :: r.2)

/-- `SFTPClient._ensure_remote_dir`: no-op on `""` and `"."`; otherwise walk
upward collecting ancestors, then stat each one from root to leaf and create
the levels whose stat reports not-found. -/
def ensure_remote_dir (fs : List Str) (remote_dir : Str) : List Str × List RC :=
  if remote_dir = [] ∨ remote_dir = ['.'] then (fs, [])
  else ensureLoop fs (collectParts (remote_dir.length + 1) remote_dir).reverse

example : dirname "/a/b/c".data = "/a/b".data := by decide
example : dirname "/a".data = "/".data := by decide
example : dirname "a".data = "".data := by decide
example : join_remote ["a".data, "b".data] = "a/b".data := by decide
example : join_remote ["a".data, "/b".data] = "/b".data := by decide
example : join_remote ["".data, "".data] = "".data := by decide
example : join_remote ["a\\b".data, "c".data] = "a/b/c".data := by decide
example :
    (ensure_remote_dir [] "/a/b/c".data).2 =
      [RC.stat "/a".data, RC.mkdir "/a".data,
       RC.stat "/a/b".data, RC.mkdir "/a/b".data,
       RC.stat "/a/b/c".data, RC.mkdir "/a/b/c".data] := by decide

/-- Events of one `upload`/`download` invocation at the level of the sync
engine: calls to the directory materializer and to the session primitives,
plus local directory creation (`Path.mkdir(parents=True, exist_ok=True)`). -/
inductive Ev where
  | ensure (d : Str)
  | put (l r : Str)
  | statR (p : Str)
  | listdir (p : Str)
  | get (r l : Str)
  | mklocal (d : Str)
deriving DecidableEq, Repr

/-- A local directory tree: the files directly inside a directory and its
named subdirectories, each in the order the local filesystem reports them. -/
inductive LTree where
  | node (files : List Str) (subs : List (Str × LTree))

/-- `os.path.relpath` offset of a child named `n` below a directory whose own
offset from the walk root is `rel` (`""` for the root itself). -/
def childRel (rel n : Str) : Str := if rel = [] then n else rel ++ '/' :: n

mutual
/-- `os.walk(root)` (top-down): the pre-order list of
(relative offset, files in that directory) pairs, the root first, each
directory yielded before its subdirectories are descended into. -/
def walkRel (t : LTree) (rel : Str) : List (Str × List Str) :=
  match t with
  | .node files subs => (rel, files) :: walkRelSubs subs rel

/-- The walk continued over a list of named subdirectories, in order. -/
def walkRelSubs (subs : List (Str × LTree)) (rel : Str) : List (Str × List Str) :=
  match subs with
  | [] => []
  | (n, c) :: rest => walkRel c (childRel rel n) ++ walkRelSubs rest rel
end

/-- One iteration of the `os.walk` loop inside `_upload_directory`: compute
the mapped remote directory, ensure it, then put every file in it. -/
def uploadSeg (remote_dir local_dir : Str) (pr : Str × List Str) : List Ev :=
  let remote_root := join_remote [remote_dir, pr.1]
  let root := if pr.1 = [] then local_dir else posixJoin1 local_dir pr.1
  Ev.ensure remote_root ::
    pr.2.map (fun f => Ev.put (posixJoin1 root f) (join_remote [remote_root, f]))

/-- `SFTPClient._upload_directory`. -/
def uploadDirectory (local_dir remote_dir : Str) (t : LTree) : List Ev :=
  (walkRel t []).flatMap (uploadSeg remote_dir local_dir)

/-- The failure raised by `upload` on a missing local path. -/
inductive UpErr where
  | localPathNotFound
deriving DecidableEq, Repr

/-- What the local filesystem holds at the source path of an `upload`:
nothing, a regular file, or a directory tree. -/
inductive LocalSrc where
  | missing
  | file
  | dir (t : LTree)

/-- `SFTPClient.upload`.  `os.path.expanduser` and `os.path.abspath` are
modelled as the identity: paths are taken as already expanded, the working
directory being outside the model.  The result is the trace of engine events
together with the failure, if any. -/
def upload (src : LocalSrc) (local_path remote_path : Str) : List Ev × Option UpErr :=
  match src with
  | .missing => ([], some .localPathNotFound)
  | .dir t => (uploadDirectory local_path remote_path t, none)
  | .file =>
    let remote_dir := dirname remote_path
    ((if remote_dir = [] then [] else [Ev.ensure remote_dir]) ++
      [Ev.put local_path remote_path], none)

/-- A remote tree entry: a regular file or a directory with its entries in
the order `listdir_attr` returns them. -/
inductive RNode where
  | file
  | dir (entries : List (Str × RNode))

/-- `pathlib`'s `Path.parent`, modelled for normalized paths: drop the last
component (`posixpath.dirname`), with `"."` for single-component relative
paths. -/
def pathParent (p : Str) : Str :=
  let d := dirname p
  if d = [] then ['.'] else d

/-- `pathlib`'s `/` operator applied to one relative component. -/
def pjoin (a n : Str) : Str :=
  if a.getLast? = some '/' then a ++ n else a ++ '/' :: n

mutual
/-- `SFTPClient._download_directory`: create the local directory, list the
remote one, then handle each entry in listed order (recursing on
subdirectories, fetching files after ensuring their local parent). -/
def downloadDirectory (remote_dir local_dir : Str) (entries : List (Str × RNode)) : List Ev :=
  Ev.mklocal local_dir :: Ev.listdir remote_dir ::
    downloadEntries remote_dir local_dir entries

/-- The body of the `listdir_attr` loop of `_download_directory`. -/
def downloadEntries (remote_dir local_dir : Str) : List (Str × RNode) → List Ev
  | [] => []
  | (n, node) :: rest =>
    (match node with
     | .dir es => downloadDirectory (join_remote [remote_dir, n]) (pjoin local_dir n) es
     | .file =>
       [Ev.mklocal (pathParent (pjoin local_dir n)),
        Ev.get (join_remote [remote_dir, n]) (pjoin local_dir n)]) ++
    downloadEntries remote_dir local_dir rest
end

/-- Failures of the underlying stat primitive: the not-found condition, or
any other session failure. -/
inductive StatErr where
  | notFound
  | other
deriving DecidableEq, Repr

/-- The attributes returned by a successful `sftp.stat`. -/
structure SAttrs where
  st_mode : Nat
deriving DecidableEq, Repr

/-- `stat.S_ISDIR`: the file-type bits of the mode equal `S_IFDIR`. -/
def S_ISDIR (m : Nat) : Bool := m &&& 61440 == 16384

/-- Failures surfaced by `download`. -/
inductive RErr where
  | remotePathNotFound
  | sessionOther
deriving DecidableEq, Repr

/-- `SFTPClient._is_remote_dir` as a function of the underlying stat result:
not-found becomes `remotePathNotFound`, any other stat failure propagates,
and a successful stat is classified by its mode bits. -/
def is_remote_dir (res : Except StatErr SAttrs) : Except RErr Bool :=
  match res with
  | .error .notFound => .error .remotePathNotFound
  | .error .other => .error .sessionOther
  | .ok a => .ok (S_ISDIR a.st_mode)

/-- The `st_mode` a remote tree node reports (regular file `0o100644`,
directory `0o40755`). -/
def statAttrs : RNode → SAttrs
  | .file => ⟨33188⟩
  | .dir _ => ⟨16877⟩

/-- `SFTPClient.download`.  The first argument is what the remote filesystem
holds at `remote_path`, as reported by the initial stat: absent, failing
otherwise, or an existing node.  `Path.expanduser().resolve()` is modelled as
the identity (the local path is taken as already absolute and normalized). -/
def download (sr : Except StatErr RNode) (remote_path local_path : Str) :
    List Ev × Option RErr :=
  match sr with
  | .error .notFound => ([Ev.statR remote_path], some .remotePathNotFound)
  | .error .other => ([Ev.statR remote_path], some .sessionOther)
  | .ok (.dir es) =>
    (Ev.statR remote_path :: downloadDirectory remote_path local_path es, none)
  | .ok .file =>
    ([Ev.statR remote_path, Ev.mklocal (pathParent local_path),
      Ev.get remote_path local_path], none)

example :
    (upload (.dir (.node ["a.txt".data] [("sub".data, .node ["b.txt".data] [])]))
        "root".data "/home/u/target".data).1 =
      [Ev.ensure "/home/u/target".data,
       Ev.put "root/a.txt".data "/home/u/target/a.txt".data,
       Ev.ensure "/home/u/target/sub".data,
       Ev.put "root/sub/b.txt".data "/home/u/target/sub/b.txt".data] := by decide

example :
    download (.ok .file) "/r/onefile.txt".data "/local/out.txt".data =
      ([Ev.statR "/r/onefile.txt".data, Ev.mklocal "/local".data,
        Ev.get "/r/onefile.txt".data "/local/out.txt".data], none) := by decide

/-- If some element of the list fails the filter, the filtered list is
strictly shorter. -/
theorem length_filter_lt_of_mem {α : Type} (p : α → Bool) (l : List α) (a : α)
    (ha : a ∈ l) (hpa : p a = false) : (l.filter p).length < l.length := by
  induction l with
  | nil => cases ha
  | cons b t ih =>
    rcases List.mem_cons.mp ha with hab | hat
    · subst hab
      simp only [List.filter_cons, hpa, Bool.false_eq_true, if_neg, ite_false,
        List.length_cons]
      exact Nat.lt_succ_of_le (List.length_filter_le p t)
    · have := ih hat
      simp only [List.filter_cons, List.length_cons]
      split
      · simpa using Nat.succ_lt_succ this
      · exact Nat.lt_succ_of_lt this

/-- `quicksort` from src/src/quicksort.py: pick the middle element as the
pivot and recurse on the strictly-smaller and strictly-greater parts, keeping
everything equal to the pivot in the middle. -/
def quicksort {α : Type} [LinearOrder α] (arr : List α) : List α :=
  if h : arr.length ≤ 1 then arr
  else
    let pivot := arr.get ⟨arr.length / 2, Nat.div_lt_self (by omega) (by omega)⟩
    let left := arr.filter (fun x => decide (x < pivot))
    let middle := arr.filter (fun x => decide (x = pivot))
    let right := arr.filter (fun x => decide (x > pivot))
    quicksort left ++ middle ++ quicksort right
termination_by arr.length
decreasing_by
  · exact length_filter_lt_of_mem _ arr (arr.get ⟨arr.length / 2, by omega⟩)
      (List.get_mem arr _ _) (by simp)
  · exact length_filter_lt_of_mem _ arr (arr.get ⟨arr.length / 2, by omega⟩)
      (List.get_mem arr _ _) (by simp)

/-- `arr[i], arr[j] = arr[j], arr[i]` on a Python list: simultaneous swap via
read-then-write; reads and writes out of range are modelled by
`getD`/`set` (the verified calls stay in range). -/
def swapL {α : Type} [Inhabited α] (l : List α) (i j : Nat) : List α :=
  let vi := l.getD i default
  let vj := l.getD j default
  (l.set i vj).set j vi

/-- The `for j in range(low, high)` loop of `_partition`: `i` is the index of
the last element known to be at most the pivot (`low - 1` initially, hence an
integer). -/
def partLoop {α : Type} [LinearOrder α] [Inhabited α] (pivot : α) :
    List α → Int → Nat → Nat → List α × Int
  | l, i, j, high =>
    if j < high then
      if l.getD j default ≤ pivot then
        partLoop pivot (swapL l (i + 1).toNat j) (i + 1) (j + 1) high
      else
        partLoop pivot l i (j + 1) high
    else (l, i)
termination_by l i j high => high - j

/-- `_partition` from src/src/quicksort.py (Lomuto partition around the last
element of the range). -/
def pyPartition {α : Type} [LinearOrder α] [Inhabited α]
    (l : List α) (low high : Nat) : List α × Nat :=
  let pivot := l.getD high default
  let r := partLoop pivot l ((low : Int) - 1) low high
  let k := (r.2 + 1).toNat
  (swapL r.1 k high, k)

/-- The index returned by the partition loop moves by at most one per
iteration: it stays between its starting value and start plus the number of
iterations. -/
theorem partLoop_snd_bounds {α : Type} [LinearOrder α] [Inhabited α] (pivot : α)
    (l : List α) (i : Int) (j high : Nat) (hj : j ≤ high) :
    i ≤ (partLoop pivot l i j high).2 ∧
      (partLoop pivot l i j high).2 ≤ i + ((high : Int) - (j : Int)) := by
  rw [partLoop]
  split
  · split
    · have := partLoop_snd_bounds pivot (swapL l (i + 1).toNat j) (i + 1) (j + 1) high
        (by omega)
      omega
    · have := partLoop_snd_bounds pivot l i (j + 1) high (by omega)
      omega
  · omega
termination_by high - j

/-- Bounds for the index returned by `_partition`. -/
theorem pyPartition_snd_bounds {α : Type} [LinearOrder α] [Inhabited α]
    (l : List α) (low high : Nat) (h : low ≤ high) :
    low ≤ (pyPartition l low high).2 ∧ (pyPartition l low high).2 ≤ high := by
  have hb := partLoop_snd_bounds (l.getD high default) l ((low : Int) - 1) low high h
  simp only [pyPartition]
  omega

/-- The recursive body of `quicksort_inplace`.  The recursion always keeps
`low ≥ 0` (it starts at `0` and recursive calls use `0 ≤ pivot_index + 1`),
so `low` is a natural number, while `high` may become `-1` and is an
integer. -/
def qsiAux {α : Type} [LinearOrder α] [Inhabited α]
    (l : List α) (low : Nat) (high : Int) : List α :=
  if h : (low : Int) < high then
    let pr := pyPartition l low high.toNat
    qsiAux (qsiAux pr.1 low ((pr.2 : Int) - 1)) (pr.2 + 1) high
  else l
termination_by (high + 1 - (low : Int)).toNat
decreasing_by
  · have hb := pyPartition_snd_bounds l low high.toNat (by omega)
    omega
  · have hb := pyPartition_snd_bounds l low high.toNat (by omega)
    omega

/-- `quicksort_inplace(arr)` with the default arguments
(`low = 0`, `high = len(arr) - 1`). -/
def quicksort_inplace {α : Type} [LinearOrder α] [Inhabited α] (l : List α) : List α :=
  qsiAux l 0 ((l.length : Int) - 1)


/-- Modelled from the spec: "joins non-empty path fragments with `/`" — the
fragments interleaved with single slashes. -/
def slashJoin : List Str → Str
  | [] => []
  | [p] => p
  | p :: rest => p ++ '/' :: slashJoin rest

/-- Modelled from the spec: `joinRemote(parts...)` as the spec words it —
join the non-empty fragments with `/`, normalize `\` to `/`, and return the
empty string if no parts remain. -/
def joinRemoteSpec (parts : List Str) : Str :=
  replaceBS (slashJoin (parts.filter (fun p => !p.isEmpty)))

/-- C7 (counterexample): `_join_remote` does not join the non-empty
fragments with `/` in general.  A second fragment that is absolute makes
`posixpath.join` discard the first fragment entirely, and a fragment ending
in `/` receives no separator. -/
theorem join_remote_not_plain_slash_join :
    join_remote ["a".data, "/b".data] = "/b".data ∧
      joinRemoteSpec ["a".data, "/b".data] = "a//b".data ∧
      join_remote ["a".data, "/b".data] ≠ joinRemoteSpec ["a".data, "/b".data] ∧
      join_remote ["a/".data, "b".data] = "a/b".data ∧
      joinRemoteSpec ["a/".data, "b".data] = "a//b".data ∧
      join_remote ["a/".data, "b".data] ≠ joinRemoteSpec ["a/".data, "b".data] := by
  decide

theorem slashJoin_append_cons (a b : Str) (rest : List Str) :
    slashJoin ((a ++ '/' :: b) :: rest) = a ++ '/' :: slashJoin (b :: rest) := by
  cases rest with
  | nil => rfl
  | cons x xs => simp [slashJoin]

theorem posixJoin_eq_slashJoin (cs : List Str) : ∀ c : Str, c ≠ [] →
    c.getLast? ≠ some '/' →
    (∀ p ∈ cs, p ≠ [] ∧ p.head? ≠ some '/' ∧ p.getLast? ≠ some '/') →
    posixJoin c cs = slashJoin (c :: cs) := by
  induction cs with
  | nil => intro c _ _ _; rfl
  | cons b bs ih =>
    intro c hc hcl h
    obtain ⟨hb, hbh, hbl⟩ := h b (List.mem_cons_self b bs)
    have hstep : posixJoin1 c b = c ++ '/' :: b := by
      unfold posixJoin1
      rw [if_neg hbh, if_neg]
      push_neg
      exact ⟨hc, hcl⟩
    obtain ⟨x, hx⟩ : ∃ x, b.getLast? = some x := by
      cases hbe : b.getLast? with
      | none => exact absurd (List.getLast?_eq_none_iff.mp hbe) hb
      | some y => exact ⟨y, rfl⟩
    have hlast : (c ++ '/' :: b).getLast? ≠ some '/' := by
      rw [List.getLast?_append]
      have : ('/' :: b).getLast? = some x := by
        have : ('/' :: b) = ['/'] ++ b := rfl
        rw [this, List.getLast?_append, hx]
        rfl
      rw [this]
      simp only [Option.or_some]
      intro hcon
      exact hbl (hx.trans (congrArg some (Option.some.inj hcon)))
    have hjoin : posixJoin c (b :: bs) = posixJoin (c ++ '/' :: b) bs := by
      simp only [posixJoin, List.foldl_cons, hstep]
    rw [hjoin, ih (c ++ '/' :: b) (by simp) hlast
      (fun p hp => h p (List.mem_cons_of_mem b hp)), slashJoin_append_cons]
    rfl

theorem posixJoin_ne_nil (cs : List Str) : ∀ c : Str, c ≠ [] →
    (∀ p ∈ cs, p ≠ []) → posixJoin c cs ≠ [] := by
  induction cs with
  | nil => intro c hc _; exact hc
  | cons b bs ih =>
    intro c hc h
    have hb : b ≠ [] := h b (List.mem_cons_self b bs)
    have h1 : posixJoin1 c b ≠ [] := by
      unfold posixJoin1
      split
      · exact hb
      · split
        · simp [hc]
        · simp
    have : posixJoin c (b :: bs) = posixJoin (posixJoin1 c b) bs := rfl
    rw [this]
    exact ih _ h1 (fun p hp => h p (List.mem_cons_of_mem b hp))

theorem replaceBS_eq_nil_iff (s : Str) : replaceBS s = [] ↔ s = [] := by
  simp [replaceBS]

/-- C7 (amended): `_join_remote` returns the empty string exactly when no
non-empty fragment remains; and it joins the non-empty fragments with `/`
(then normalizes `\` to `/`) provided no fragment after the first is
absolute and no fragment ends with `/` — in general the fragments are
combined with `posixpath.join` semantics before the normalization. -/
theorem join_remote_posix_semantics (parts : List Str) :
    (join_remote parts = [] ↔ parts.filter (fun p => !p.isEmpty) = []) ∧
    ((∀ p ∈ (parts.filter (fun p => !p.isEmpty)).tail, p.head? ≠ some '/') →
     (∀ p ∈ parts.filter (fun p => !p.isEmpty), p.getLast? ≠ some '/') →
      join_remote parts = joinRemoteSpec parts) := by
  cases hcl : parts.filter (fun p => !p.isEmpty) with
  | nil =>
    constructor
    · simp [join_remote, hcl]
    · intro _ _
      simp [join_remote, joinRemoteSpec, hcl, slashJoin, replaceBS]
  | cons c cs =>
    have hmem : ∀ p ∈ c :: cs, p ≠ [] := by
      intro p hp
      have : p ∈ parts.filter (fun p => !p.isEmpty) := hcl ▸ hp
      have := List.mem_filter.mp this
      simpa using this.2
    constructor
    · constructor
      · intro h
        exfalso
        have hne := posixJoin_ne_nil cs c (hmem c (List.mem_cons_self c cs))
          (fun p hp => hmem p (List.mem_cons_of_mem c hp))
        rw [join_remote, hcl] at h
        exact hne ((replaceBS_eq_nil_iff _).mp h)
      · intro h
        exact absurd h (by simp)
    · intro h1 h2
      rw [join_remote, hcl, joinRemoteSpec, hcl]
      show replaceBS (posixJoin c cs) = replaceBS (slashJoin (c :: cs))
      rw [posixJoin_eq_slashJoin cs c (hmem c (List.mem_cons_self c cs))
        (h2 c (List.mem_cons_self c cs))
        (fun p hp =>
          ⟨hmem p (List.mem_cons_of_mem c hp), h1 p hp,
           h2 p (List.mem_cons_of_mem c hp)⟩)]

theorem join_remote_posix_semantics_witness :
    (∀ p ∈ (["a".data, "b\\c".data].filter (fun p => !p.isEmpty)).tail,
      p.head? ≠ some '/') ∧
    (∀ p ∈ ["a".data, "b\\c".data].filter (fun p => !p.isEmpty),
      p.getLast? ≠ some '/') ∧
    join_remote ["a".data, "b\\c".data] = joinRemoteSpec ["a".data, "b\\c".data] :=
  ⟨by decide, by decide,
    (join_remote_posix_semantics ["a".data, "b\\c".data]).2 (by decide) (by decide)⟩

/-- C5: upload of a missing local path fails with `LocalPathNotFound` and
issues zero remote calls: the trace is empty. -/
theorem upload_missing_local_no_remote_calls (lp rp : Str) :
    upload .missing lp rp = ([], some .localPathNotFound) := rfl

/-- C6: `_is_remote_dir` fails with `RemotePathNotFound` exactly when the
stat reports not-found; an existing path is classified by the mode bits of
its stat (directory or file); any other stat failure propagates; and
`download` on an absent remote path fails with `RemotePathNotFound`. -/
theorem is_remote_dir_classification :
    (∀ res : Except StatErr SAttrs,
      is_remote_dir res = .error .remotePathNotFound ↔ res = .error .notFound) ∧
    (∀ a : SAttrs, is_remote_dir (.ok a) = .ok (S_ISDIR a.st_mode)) ∧
    is_remote_dir (.error .other) = .error .sessionOther ∧
    S_ISDIR (statAttrs .file).st_mode = false ∧
    (∀ es, S_ISDIR (statAttrs (.dir es)).st_mode = true) ∧
    (∀ rp lp : Str,
      download (.error .notFound) rp lp = ([Ev.statR rp], some .remotePathNotFound)) := by
  refine ⟨?_, fun a => rfl, rfl, by decide, fun es => by show S_ISDIR 16877 = true; decide, fun rp lp => rfl⟩
  intro res
  constructor
  · intro h
    match res with
    | .error .notFound => rfl
    | .error .other => exact absurd h (by simp [is_remote_dir])
    | .ok a => exact absurd h (by simp [is_remote_dir])
  · intro h
    subst h
    rfl

/-- C8: downloading a remote path that classifies as a file ensures the
local parent directory, then performs exactly one `get` and no directory
listing; instantiated on the spec's scenario. -/
theorem download_file_ensures_parent_single_get :
    (∀ rp lp : Str, download (.ok .file) rp lp =
      ([Ev.statR rp, Ev.mklocal (pathParent lp), Ev.get rp lp], none)) ∧
    pathParent "/local/out.txt".data = "/local".data ∧
    download (.ok .file) "/r/onefile.txt".data "/local/out.txt".data =
      ([Ev.statR "/r/onefile.txt".data, Ev.mklocal "/local".data,
        Ev.get "/r/onefile.txt".data "/local/out.txt".data], none) :=
  ⟨fun rp lp => rfl, by decide, by decide⟩

/-- C4: from an empty remote filesystem, ensuring `/a/b/c` stats and creates
`/a`, `/a/b`, `/a/b/c` in exactly this root-to-leaf order, each level being
created only on a not-found stat. -/
theorem ensure_creates_root_to_leaf :
    (ensure_remote_dir [] "/a/b/c".data).2 =
      [RC.stat "/a".data, RC.mkdir "/a".data,
       RC.stat "/a/b".data, RC.mkdir "/a/b".data,
       RC.stat "/a/b/c".data, RC.mkdir "/a/b/c".data] ∧
    (ensure_remote_dir [] "/a/b/c".data).2.filter RC.isCreate =
      [RC.mkdir "/a".data, RC.mkdir "/a/b".data, RC.mkdir "/a/b/c".data] := by
  decide

/-- After one pass of the stat/mkdir loop, every directory of the list (and
everything that already existed) exists. -/
theorem ensureLoop_mem_result (dirs : List Str) : ∀ fs : List Str,
    (∀ d ∈ dirs, d ∈ (ensureLoop fs dirs).1) ∧ ∀ x ∈ fs, x ∈ (ensureLoop fs dirs).1 := by
  induction dirs with
  | nil => intro fs; simp [ensureLoop]
  | cons d rest ih =>
    intro fs
    simp only [ensureLoop]
    split
    · obtain ⟨h1, h2⟩ := ih fs
      refine ⟨fun x hx => ?_, fun x hx => h2 x hx⟩
      rcases List.mem_cons.mp hx with hxd | hxr
      · exact hxd ▸ h2 d (by assumption)
      · exact h1 x hxr
    · obtain ⟨h1, h2⟩ := ih (d :: fs)
      refine ⟨fun x hx => ?_, fun x hx => h2 x (List.mem_cons_of_mem d hx)⟩
      rcases List.mem_cons.mp hx with hxd | hxr
      · exact hxd ▸ h2 d (List.mem_cons_self d fs)
      · exact h1 x hxr

/-- When every directory of the list already exists, the loop only stats
(in list order), creates nothing, and leaves the state unchanged. -/
theorem ensureLoop_all_found (dirs : List Str) : ∀ fs : List Str,
    (∀ d ∈ dirs, d ∈ fs) → ensureLoop fs dirs = (fs, dirs.map RC.stat) := by
  induction dirs with
  | nil => intro fs _; rfl
  | cons d rest ih =>
    intro fs h
    have hd : d ∈ fs := h d (List.mem_cons_self d rest)
    simp only [ensureLoop, if_pos hd, ih fs (fun x hx => h x (List.mem_cons_of_mem d hx)),
      List.map_cons]

/-- C3: `_ensure_remote_dir` is idempotent: a second call right after a
first one leaves the remote state unchanged and issues no directory-creation
call (its trace consists of successful stats only). -/
theorem ensure_remote_dir_idempotent (fs : List Str) (rd : Str) :
    (ensure_remote_dir (ensure_remote_dir fs rd).1 rd).1 = (ensure_remote_dir fs rd).1 ∧
    ∀ c ∈ (ensure_remote_dir (ensure_remote_dir fs rd).1 rd).2, RC.isCreate c = false := by
  by_cases hrd : rd = [] ∨ rd = ['.']
  · simp [ensure_remote_dir, hrd]
  · have h1 := (ensureLoop_mem_result (collectParts (rd.length + 1) rd).reverse fs).1
    have h2 := ensureLoop_all_found (collectParts (rd.length + 1) rd).reverse
      (ensureLoop fs (collectParts (rd.length + 1) rd).reverse).1 h1
    simp only [ensure_remote_dir, if_neg hrd, h2]
    refine ⟨by trivial, fun c hc => ?_⟩
    obtain ⟨p, _, hp⟩ := List.mem_map.mp hc
    rw [← hp]
    rfl

/-- A well-formed entry name: non-empty, no separator, no backslash. -/
def wfName (n : Str) : Bool :=
  !n.isEmpty && n.all (fun c => !(c == '/') && !(c == '\\'))

/-- A well-formed absolute destination root: starts with `/`, does not end
with `/`, contains no backslash. -/
def wfRoot (r : Str) : Bool :=
  (r.head? == some '/') && !(r.getLast? == some '/') && r.all (fun c => !(c == '\\'))

/-- A well-formed relative offset as produced by the walk: empty, or a
`/`-separated chain of names — it neither starts nor ends with `/` and
contains no backslash. -/
def wfRel (rel : Str) : Bool :=
  !(rel.head? == some '/') && !(rel.getLast? == some '/') && rel.all (fun c => !(c == '\\'))

mutual
/-- Every name in the local tree is well-formed. -/
def wfTree : LTree → Bool
  | .node files subs => files.all wfName && wfSubs subs

/-- Well-formedness of a list of named local subtrees. -/
def wfSubs : List (Str × LTree) → Bool
  | [] => true
  | (n, c) :: rest => wfName n && wfTree c && wfSubs rest
end

mutual
/-- Every name in the remote tree is well-formed. -/
def wfRTree : RNode → Bool
  | .file => true
  | .dir es => wfEntries es

/-- Well-formedness of a list of named remote entries. -/
def wfEntries : List (Str × RNode) → Bool
  | [] => true
  | (n, c) :: rest => wfName n && wfRTree c && wfEntries rest
end

/-- The directories passed to the materializer in a trace, in order. -/
def ensuredDirs : List Ev → List Str
  | [] => []
  | Ev.ensure d :: r => ensuredDirs r ++ [d]
  | _ :: r => ensuredDirs r

/-- The parent-before-child discipline of an upload trace, checked by a
left-to-right scan: a directory may be ensured only if it is the destination
root or its parent directory was ensured earlier, and a file may be put only
into an already-ensured directory. -/
def upScan (root : Str) (seen : List Str) : List Ev → Bool
  | [] => true
  | Ev.ensure d :: rest =>
    (d == root || decide (dirname d ∈ seen)) && upScan root (d :: seen) rest
  | Ev.put _ r :: rest => decide (dirname r ∈ seen) && upScan root seen rest
  | _ :: rest => upScan root seen rest

/-- The local directories created (`mkdir -p`) in a trace, in order. -/
def mkDirs : List Ev → List Str
  | [] => []
  | Ev.mklocal d :: r => mkDirs r ++ [d]
  | _ :: r => mkDirs r

/-- The parent-before-child discipline of a download trace: a local
directory may be created only if it is the destination root or its parent
was created earlier, and a file may be fetched only into an already-created
directory. -/
def downScan (root : Str) (seen : List Str) : List Ev → Bool
  | [] => true
  | Ev.mklocal d :: rest =>
    (d == root || decide (pathParent d ∈ seen)) && downScan root (d :: seen) rest
  | Ev.get _ lc :: rest => decide (pathParent lc ∈ seen) && downScan root seen rest
  | _ :: rest => downScan root seen rest

theorem upScan_append (root : Str) (A B : List Ev) : ∀ seen : List Str,
    upScan root seen (A ++ B) =
      (upScan root seen A && upScan root (ensuredDirs A ++ seen) B) := by
  induction A with
  | nil => intro seen; simp [upScan, ensuredDirs]
  | cons e rest ih =>
    intro seen
    match e with
    | Ev.ensure d =>
      simp only [List.cons_append, upScan, ensuredDirs, List.append_eq, List.nil_append,
        ih (d :: seen), List.append_assoc, List.singleton_append, Bool.and_assoc]
    | Ev.put a b =>
      simp only [List.cons_append, upScan, ensuredDirs, List.append_eq, ih seen,
        Bool.and_assoc]
    | Ev.statR p => simp only [List.cons_append, upScan, ensuredDirs, List.append_eq, ih seen]
    | Ev.listdir p => simp only [List.cons_append, upScan, ensuredDirs, List.append_eq, ih seen]
    | Ev.get a b => simp only [List.cons_append, upScan, ensuredDirs, List.append_eq, ih seen]
    | Ev.mklocal d => simp only [List.cons_append, upScan, ensuredDirs, List.append_eq, ih seen]

theorem downScan_append (root : Str) (A B : List Ev) : ∀ seen : List Str,
    downScan root seen (A ++ B) =
      (downScan root seen A && downScan root (mkDirs A ++ seen) B) := by
  induction A with
  | nil => intro seen; simp [downScan, mkDirs]
  | cons e rest ih =>
    intro seen
    match e with
    | Ev.mklocal d =>
      simp only [List.cons_append, downScan, mkDirs, List.append_eq, List.nil_append,
        ih (d :: seen), List.append_assoc, List.singleton_append, Bool.and_assoc]
    | Ev.get a b =>
      simp only [List.cons_append, downScan, mkDirs, List.append_eq, ih seen, Bool.and_assoc]
    | Ev.statR p => simp only [List.cons_append, downScan, mkDirs, List.append_eq, ih seen]
    | Ev.listdir p => simp only [List.cons_append, downScan, mkDirs, List.append_eq, ih seen]
    | Ev.put a b => simp only [List.cons_append, downScan, mkDirs, List.append_eq, ih seen]
    | Ev.ensure d => simp only [List.cons_append, downScan, mkDirs, List.append_eq, ih seen]

theorem takeWhile_all_append {p : Char → Bool} (l1 : Str) (b : Char) (l2 : Str)
    (h1 : ∀ a ∈ l1, p a = true) (hb : p b = false) :
    (l1 ++ b :: l2).takeWhile p = l1 := by
  induction l1 with
  | nil => simp [List.takeWhile_cons, hb]
  | cons x xs ih =>
    have hx : p x = true := h1 x (List.mem_cons_self x xs)
    simp only [List.cons_append, List.takeWhile_cons, hx, if_pos]
    rw [ih (fun a ha => h1 a (List.mem_cons_of_mem x ha))]

/-- Every non-empty list has its last element as a member. -/
theorem getLast?_mem_of_ne_nil {l : Str} (h : l ≠ []) :
    ∃ c, l.getLast? = some c ∧ c ∈ l :=
  ⟨l.getLast h, List.getLast?_eq_getLast l h, List.getLast_mem h⟩

/-- `posixpath.dirname (x ++ "/" ++ n)` is `x` whenever `n` is a non-empty
separator-free name, `x` does not end in `/` and `x` contains some
non-separator character. -/
theorem dirname_append (x n : Str) (hx : ∃ c ∈ x, c ≠ '/')
    (hxl : x.getLast? ≠ some '/') (hn : n ≠ []) (hns : ∀ c ∈ n, c ≠ '/') :
    dirname (x ++ '/' :: n) = x := by
  have hxne : x ≠ [] := by rintro rfl; simp at hx
  have hrev : (x ++ '/' :: n).reverse = n.reverse ++ '/' :: x.reverse := by
    rw [show x ++ '/' :: n = (x ++ ['/']) ++ n by simp, List.reverse_append,
      List.reverse_append]
    simp
  have htw : (x ++ '/' :: n).reverse.takeWhile (fun c => c != '/') = n.reverse := by
    rw [hrev]
    exact takeWhile_all_append _ _ _
      (fun a ha => by simpa using hns a (List.mem_reverse.mp ha)) (by simp)
  have hilen : (x ++ '/' :: n).length - n.reverse.length = x.length + 1 := by
    simp only [List.length_append, List.length_cons, List.length_reverse]
    omega
  have hhead : (x ++ '/' :: n).take (x.length + 1) = x ++ ['/'] := by
    rw [show x ++ '/' :: n = (x ++ ['/']) ++ n by simp,
      show x.length + 1 = (x ++ ['/']).length by simp, List.take_left]
  rw [dirname]
  simp only [htw, hilen, hhead]
  rw [if_pos]
  · rw [show (x ++ ['/']).reverse = '/' :: x.reverse by
      rw [List.reverse_append]; simp]
    rw [List.dropWhile_cons]
    simp only [beq_self_eq_true, if_pos]
    obtain ⟨c, hc, hcm⟩ := getLast?_mem_of_ne_nil hxne
    have hcrev : x.reverse = c :: (x.reverse.tail) := by
      have : x.reverse.head? = some c := by rw [List.head?_reverse]; exact hc
      cases hxr : x.reverse with
      | nil => rw [hxr] at this; cases this
      | cons y ys => rw [hxr] at this; cases this; rfl
    rw [hcrev, List.dropWhile_cons_of_neg, ← hcrev, List.reverse_reverse]
    have : c ≠ '/' := fun hcc => hxl (hcc ▸ hc)
    simpa using this
  · rw [Bool.and_eq_true]
    refine ⟨by simp, ?_⟩
    obtain ⟨c, hcm, hcne⟩ := hx
    exact (List.any_eq_true).mpr ⟨c, List.mem_append_left _ hcm, by simpa using hcne⟩

theorem replaceBS_eq_self (s : Str) (h : ∀ c ∈ s, c ≠ '\\') : replaceBS s = s := by
  induction s with
  | nil => rfl
  | cons c cs ih =>
    simp only [replaceBS, List.map_cons]
    rw [if_neg (h c (List.mem_cons_self c cs))]
    have := ih (fun a ha => h a (List.mem_cons_of_mem c ha))
    simp only [replaceBS] at this
    rw [this]

theorem head?_append_left {l l' : Str} (h : l ≠ []) : (l ++ l').head? = l.head? := by
  cases l with
  | nil => exact absurd rfl h
  | cons c cs => rfl

theorem getLast?_append_right {l l' : Str} (h : l' ≠ []) :
    (l ++ l').getLast? = l'.getLast? := by
  rw [List.getLast?_append]
  obtain ⟨c, hc, _⟩ := getLast?_mem_of_ne_nil h
  rw [hc]
  rfl

theorem wfName_facts {n : Str} (h : wfName n = true) :
    n ≠ [] ∧ ∀ c ∈ n, c ≠ '/' ∧ c ≠ '\\' := by
  simp only [wfName, Bool.and_eq_true, List.all_eq_true] at h
  refine ⟨by simpa using h.1, fun c hc => ?_⟩
  have := h.2 c hc
  simp only [Bool.and_eq_true, Bool.not_eq_true', beq_eq_false_iff_ne] at this
  exact this

theorem wfRoot_facts {r : Str} (h : wfRoot r = true) :
    r.head? = some '/' ∧ r.getLast? ≠ some '/' ∧ (∀ c ∈ r, c ≠ '\\') ∧ r ≠ [] := by
  simp only [wfRoot, Bool.and_eq_true, List.all_eq_true] at h
  obtain ⟨⟨h1, h2⟩, h3⟩ := h
  have hh : r.head? = some '/' := by simpa using h1
  refine ⟨hh, by simpa using h2, fun c hc => by simpa using h3 c hc, ?_⟩
  rintro rfl
  cases hh

theorem wfRel_facts {rel : Str} (h : wfRel rel = true) :
    rel.head? ≠ some '/' ∧ rel.getLast? ≠ some '/' ∧ ∀ c ∈ rel, c ≠ '\\' := by
  simp only [wfRel, Bool.and_eq_true, List.all_eq_true] at h
  obtain ⟨⟨h1, h2⟩, h3⟩ := h
  exact ⟨by simpa using h1, by simpa using h2, fun c hc => by simpa using h3 c hc⟩

theorem wfRoot_intro {r : Str} (hh : r.head? = some '/') (hl : r.getLast? ≠ some '/')
    (hbs : ∀ c ∈ r, c ≠ '\\') : wfRoot r = true := by
  simp only [wfRoot, Bool.and_eq_true, List.all_eq_true]
  exact ⟨⟨by simpa using hh, by simpa using hl⟩, fun c hc => by simpa using hbs c hc⟩

theorem wfRel_intro {rel : Str} (hh : rel.head? ≠ some '/') (hl : rel.getLast? ≠ some '/')
    (hbs : ∀ c ∈ rel, c ≠ '\\') : wfRel rel = true := by
  simp only [wfRel, Bool.and_eq_true, List.all_eq_true]
  exact ⟨⟨by simpa using hh, by simpa using hl⟩, fun c hc => by simpa using hbs c hc⟩

theorem wfRoot_exists_ne {r : Str} (h : wfRoot r = true) : ∃ c ∈ r, c ≠ '/' := by
  obtain ⟨_, hlast, _, hne⟩ := wfRoot_facts h
  obtain ⟨c, hc, hm⟩ := getLast?_mem_of_ne_nil hne
  exact ⟨c, hm, fun hcc => hlast (hcc ▸ hc)⟩

theorem wfRel_of_wfName {n : Str} (h : wfName n = true) : wfRel n = true := by
  obtain ⟨hne, hchars⟩ := wfName_facts h
  obtain ⟨d, hd, hdm⟩ := getLast?_mem_of_ne_nil hne
  apply wfRel_intro
  · cases n with
    | nil => exact absurd rfl hne
    | cons c cs =>
      intro hcc
      exact (hchars c (List.mem_cons_self c cs)).1 (Option.some.inj hcc)
  · rw [hd]
    intro hcc
    exact (hchars d hdm).1 (Option.some.inj hcc)
  · exact fun c hc => (hchars c hc).2

theorem join_remote_pair_nil {r : Str} (hne : r ≠ []) (hbs : ∀ c ∈ r, c ≠ '\\') :
    join_remote [r, []] = r := by
  have hcl : [r, ([] : Str)].filter (fun p => !p.isEmpty) = [r] := by
    simp [List.filter_cons, hne]
  simp only [join_remote]
  rw [hcl]
  exact replaceBS_eq_self r hbs

theorem join_remote_pair {r rel : Str} (hrne : r ≠ []) (hrel : rel ≠ [])
    (hrl : r.getLast? ≠ some '/') (hrh : rel.head? ≠ some '/')
    (hbs : ∀ c ∈ r ++ '/' :: rel, c ≠ '\\') :
    join_remote [r, rel] = r ++ '/' :: rel := by
  have hcl : [r, rel].filter (fun p => !p.isEmpty) = [r, rel] := by
    simp [List.filter_cons, hrne, hrel]
  simp only [join_remote]
  rw [hcl]
  show replaceBS (posixJoin r [rel]) = _
  have hp : posixJoin r [rel] = r ++ '/' :: rel := by
    show posixJoin1 r rel = _
    unfold posixJoin1
    rw [if_neg hrh, if_neg (by push_neg; exact ⟨hrne, hrl⟩)]
  rw [hp]
  exact replaceBS_eq_self _ hbs

theorem join_root_nil {r : Str} (hr : wfRoot r = true) : join_remote [r, []] = r :=
  join_remote_pair_nil (wfRoot_facts hr).2.2.2 (wfRoot_facts hr).2.2.1

theorem join_root_rel {r rel : Str} (hr : wfRoot r = true) (hrel : wfRel rel = true)
    (hne : rel ≠ []) : join_remote [r, rel] = r ++ '/' :: rel := by
  obtain ⟨hh, hl, hbs, hrne⟩ := wfRoot_facts hr
  obtain ⟨hrh, hrll, hrbs⟩ := wfRel_facts hrel
  refine join_remote_pair hrne hne hl hrh ?_
  intro c hc
  rcases List.mem_append.mp hc with hcr | hcc
  · exact hbs c hcr
  · rcases List.mem_cons.mp hcc with hcs | hcrel
    · subst hcs; decide
    · exact hrbs c hcrel

theorem wfRoot_join {r rel : Str} (hr : wfRoot r = true) (hrel : wfRel rel = true) :
    wfRoot (join_remote [r, rel]) = true := by
  by_cases hne : rel = []
  · subst hne
    rw [join_root_nil hr]
    exact hr
  · rw [join_root_rel hr hrel hne]
    obtain ⟨hh, hl, hbs, hrne⟩ := wfRoot_facts hr
    obtain ⟨hrh, hrll, hrbs⟩ := wfRel_facts hrel
    apply wfRoot_intro
    · rw [head?_append_left hrne]
      exact hh
    · rw [getLast?_append_right (List.cons_ne_nil _ _),
        show ('/' :: rel) = ['/'] ++ rel from rfl, getLast?_append_right hne]
      exact hrll
    · intro c hc
      rcases List.mem_append.mp hc with hcr | hcc
      · exact hbs c hcr
      · rcases List.mem_cons.mp hcc with hcs | hcrel
        · subst hcs; decide
        · exact hrbs c hcrel

theorem wfRel_childRel {rel n : Str} (hrel : wfRel rel = true) (hn : wfName n = true) :
    wfRel (childRel rel n) = true := by
  by_cases hr : rel = []
  · subst hr
    simpa [childRel] using wfRel_of_wfName hn
  · obtain ⟨hh, hl, hbs⟩ := wfRel_facts hrel
    obtain ⟨hnne, hnch⟩ := wfName_facts hn
    obtain ⟨d, hd, hdm⟩ := getLast?_mem_of_ne_nil hnne
    rw [show childRel rel n = rel ++ '/' :: n by simp [childRel, hr]]
    apply wfRel_intro
    · rw [head?_append_left hr]
      exact hh
    · rw [getLast?_append_right (List.cons_ne_nil _ _),
        show ('/' :: n) = ['/'] ++ n from rfl, getLast?_append_right hnne, hd]
      intro hcc
      exact (hnch d hdm).1 (Option.some.inj hcc)
    · intro c hc
      rcases List.mem_append.mp hc with hcr | hcc
      · exact hbs c hcr
      · rcases List.mem_cons.mp hcc with hcs | hcn
        · subst hcs; decide
        · exact (hnch c hcn).2

theorem join_root_child {r rel n : Str} (hr : wfRoot r = true) (hrel : wfRel rel = true)
    (hn : wfName n = true) :
    join_remote [r, childRel rel n] = join_remote [r, rel] ++ '/' :: n := by
  by_cases hne : rel = []
  · subst hne
    rw [show childRel [] n = n from rfl, join_root_nil hr,
      join_root_rel hr (wfRel_of_wfName hn) (wfName_facts hn).1]
  · have h1 : join_remote [r, childRel rel n] = r ++ '/' :: childRel rel n :=
      join_root_rel hr (wfRel_childRel hrel hn) (by simp [childRel, hne])
    rw [h1, join_root_rel hr hrel hne]
    simp [childRel, hne]

theorem dirname_join_child {r rel n : Str} (hr : wfRoot r = true) (hrel : wfRel rel = true)
    (hn : wfName n = true) :
    dirname (join_remote [r, childRel rel n]) = join_remote [r, rel] := by
  rw [join_root_child hr hrel hn]
  exact dirname_append _ n (wfRoot_exists_ne (wfRoot_join hr hrel))
    ((wfRoot_facts (wfRoot_join hr hrel)).2.1) (wfName_facts hn).1
    (fun c hc => ((wfName_facts hn).2 c hc).1)

theorem dirname_join_file {x f : Str} (hx : wfRoot x = true) (hf : wfName f = true) :
    dirname (join_remote [x, f]) = x := by
  rw [join_root_rel hx (wfRel_of_wfName hf) (wfName_facts hf).1]
  exact dirname_append x f (wfRoot_exists_ne hx) ((wfRoot_facts hx).2.1)
    (wfName_facts hf).1 (fun c hc => ((wfName_facts hf).2 c hc).1)

theorem pjoin_eq {ldir : Str} (n : Str) (hl : wfRoot ldir = true) :
    pjoin ldir n = ldir ++ '/' :: n := by
  unfold pjoin
  rw [if_neg (wfRoot_facts hl).2.1]

theorem pathParent_pjoin {ldir n : Str} (hl : wfRoot ldir = true) (hn : wfName n = true) :
    pathParent (pjoin ldir n) = ldir := by
  rw [pjoin_eq n hl]
  have hd : dirname (ldir ++ '/' :: n) = ldir :=
    dirname_append ldir n (wfRoot_exists_ne hl) ((wfRoot_facts hl).2.1)
      (wfName_facts hn).1 (fun c hc => ((wfName_facts hn).2 c hc).1)
  simp only [pathParent, hd]
  rw [if_neg (wfRoot_facts hl).2.2.2]

theorem wfRoot_pjoin {ldir n : Str} (hl : wfRoot ldir = true) (hn : wfName n = true) :
    wfRoot (pjoin ldir n) = true := by
  rw [pjoin_eq n hl]
  obtain ⟨hh, hll, hbs, hne⟩ := wfRoot_facts hl
  obtain ⟨hnne, hnch⟩ := wfName_facts hn
  obtain ⟨d, hd, hdm⟩ := getLast?_mem_of_ne_nil hnne
  apply wfRoot_intro
  · rw [head?_append_left hne]
    exact hh
  · rw [getLast?_append_right (List.cons_ne_nil _ _),
      show ('/' :: n) = ['/'] ++ n from rfl, getLast?_append_right hnne, hd]
    intro hcc
    exact (hnch d hdm).1 (Option.some.inj hcc)
  · intro c hc
    rcases List.mem_append.mp hc with hcr | hcc
    · exact hbs c hcr
    · rcases List.mem_cons.mp hcc with hcs | hcn
      · subst hcs; decide
      · exact (hnch c hcn).2

theorem upScan_puts (root : Str) (g h : Str → Str) (files : List Str) :
    ∀ seen : List Str, (∀ f ∈ files, dirname (h f) ∈ seen) →
    upScan root seen (files.map (fun f => Ev.put (g f) (h f))) = true := by
  induction files with
  | nil => intro seen _; rfl
  | cons f fs ih =>
    intro seen hf
    simp only [List.map_cons, upScan]
    rw [Bool.and_eq_true]
    exact ⟨by simpa using hf f (List.mem_cons_self f fs),
      ih seen (fun x hx => hf x (List.mem_cons_of_mem f hx))⟩

theorem ensuredDirs_map_put (g h : Str → Str) (files : List Str) :
    ensuredDirs (files.map (fun f => Ev.put (g f) (h f))) = [] := by
  induction files with
  | nil => rfl
  | cons f fs ih => simpa [ensuredDirs] using ih

mutual
/-- Scanning the upload trace of a subtree rooted at offset `rel`: the
parent-before-child discipline holds provided the mapped directory of `rel`
is the destination root or its parent is already ensured. -/
theorem upScan_walk (r ld : Str) (t : LTree) (rel : Str) (seen : List Str)
    (hr : wfRoot r = true) (hrel : wfRel rel = true) (ht : wfTree t = true)
    (hstart : join_remote [r, rel] = r ∨ dirname (join_remote [r, rel]) ∈ seen) :
    upScan r seen ((walkRel t rel).flatMap (uploadSeg r ld)) = true :=
  match t with
  | .node files subs => by
    have hfacts : files.all wfName = true ∧ wfSubs subs = true := by
      simpa only [wfTree, Bool.and_eq_true] using ht
    rw [walkRel, List.flatMap_cons]
    simp only [uploadSeg, List.cons_append, upScan]
    rw [Bool.and_eq_true]
    constructor
    · rcases hstart with hs | hs
      · simp [hs]
      · simp [hs]
    · rw [List.append_eq, upScan_append, Bool.and_eq_true]
      constructor
      · apply upScan_puts
        intro f hf
        rw [dirname_join_file (wfRoot_join hr hrel)
          (List.all_eq_true.mp hfacts.1 f hf)]
        exact List.mem_cons_self _ _
      · rw [ensuredDirs_map_put, List.nil_append]
        exact upScan_walkSubs r ld subs rel (join_remote [r, rel] :: seen) hr hrel
          hfacts.2 (List.mem_cons_self _ _)

/-- Scanning the upload trace of a list of named subtrees whose common
parent directory has already been ensured. -/
theorem upScan_walkSubs (r ld : Str) (subs : List (Str × LTree)) (rel : Str)
    (seen : List Str) (hr : wfRoot r = true) (hrel : wfRel rel = true)
    (hs : wfSubs subs = true) (hmem : join_remote [r, rel] ∈ seen) :
    upScan r seen ((walkRelSubs subs rel).flatMap (uploadSeg r ld)) = true :=
  match subs with
  | [] => by simp [walkRelSubs, upScan]
  | (n, c) :: rest => by
    have hfacts : wfName n = true ∧ wfTree c = true ∧ wfSubs rest = true := by
      simpa only [wfSubs, Bool.and_eq_true, and_assoc] using hs
    rw [walkRelSubs, List.flatMap_append, upScan_append, Bool.and_eq_true]
    constructor
    · exact upScan_walk r ld c (childRel rel n) seen hr
        (wfRel_childRel hrel hfacts.1) hfacts.2.1
        (Or.inr (by rw [dirname_join_child hr hrel hfacts.1]; exact hmem))
    · exact upScan_walkSubs r ld rest rel _ hr hrel hfacts.2.2
        (List.mem_append_right _ hmem)
end

mutual
/-- Scanning the download trace of a remote directory: the local
parent-before-child discipline holds provided the local target is the
destination root or its parent was already created. -/
theorem downScan_downloadDirectory (lroot rdir ldir : Str) (es : List (Str × RNode))
    (seen : List Str) (hld : wfRoot ldir = true) (hes : wfEntries es = true)
    (hstart : ldir = lroot ∨ pathParent ldir ∈ seen) :
    downScan lroot seen (downloadDirectory rdir ldir es) = true := by
  rw [downloadDirectory]
  simp only [downScan]
  rw [Bool.and_eq_true]
  constructor
  · rcases hstart with hs | hs
    · simp [hs]
    · simp [hs]
  · exact downScan_downloadEntries lroot rdir ldir es (ldir :: seen) hld hes
      (hstart.imp id (List.mem_cons_of_mem _)) (List.mem_cons_self _ _)

/-- Scanning the trace of the per-entry loop, the local directory having
been created already. -/
theorem downScan_downloadEntries (lroot rdir ldir : Str) (es : List (Str × RNode))
    (seen : List Str) (hld : wfRoot ldir = true) (hes : wfEntries es = true)
    (hstart : ldir = lroot ∨ pathParent ldir ∈ seen) (hmem : ldir ∈ seen) :
    downScan lroot seen (downloadEntries rdir ldir es) = true :=
  match es with
  | [] => by simp [downloadEntries, downScan]
  | (n, node) :: rest => by
    have hfacts : wfName n = true ∧ wfRTree node = true ∧ wfEntries rest = true := by
      simpa only [wfEntries, Bool.and_eq_true, and_assoc] using hes
    cases node with
    | dir es2 =>
      simp only [downloadEntries]
      rw [downScan_append, Bool.and_eq_true]
      constructor
      · exact downScan_downloadDirectory lroot (join_remote [rdir, n]) (pjoin ldir n)
          es2 seen (wfRoot_pjoin hld hfacts.1)
          (by simpa only [wfRTree] using hfacts.2.1)
          (Or.inr (by rw [pathParent_pjoin hld hfacts.1]; exact hmem))
      · exact downScan_downloadEntries lroot rdir ldir rest _ hld hfacts.2.2
          (hstart.imp id (List.mem_append_right _)) (List.mem_append_right _ hmem)
    | file =>
      simp only [downloadEntries]
      rw [downScan_append, Bool.and_eq_true]
      constructor
      · rw [pathParent_pjoin hld hfacts.1]
        simp only [downScan]
        rw [Bool.and_eq_true, Bool.and_eq_true]
        refine ⟨?_, ?_, rfl⟩
        · rcases hstart with hs | hs
          · simp [hs]
          · simp [hs]
        · rw [pathParent_pjoin hld hfacts.1]
          simp [hmem]
      · have : mkDirs [Ev.mklocal ldir,
            Ev.get (join_remote [rdir, n]) (pjoin ldir n)] = [ldir] := rfl
        rw [pathParent_pjoin hld hfacts.1, this]
        exact downScan_downloadEntries lroot rdir ldir rest _ hld hfacts.2.2
          (hstart.imp id (fun hp => List.mem_append_right _ hp))
          (List.mem_append_right _ hmem)
end

/-- C1: during upload of a directory tree and during download of a remote
directory tree, every destination directory is materialized strictly before
any file inside it is transferred and strictly before any of its
subdirectories are materialized — the traces pass the left-to-right
parent-before-child scans — and the spec's two-file scenario upload produces
exactly the claimed event order. -/
theorem upload_download_parent_before_child (lp rp rp2 lp2 : Str) (t : LTree)
    (es : List (Str × RNode)) (hr : wfRoot rp = true) (ht : wfTree t = true)
    (hl : wfRoot lp2 = true) (hes : wfEntries es = true) :
    upScan rp [] (upload (.dir t) lp rp).1 = true ∧
    downScan lp2 [] (download (.ok (.dir es)) rp2 lp2).1 = true ∧
    (upload (.dir (.node ["a.txt".data] [("sub".data, .node ["b.txt".data] [])]))
        "root".data "/home/u/target".data).1 =
      [Ev.ensure "/home/u/target".data,
       Ev.put "root/a.txt".data "/home/u/target/a.txt".data,
       Ev.ensure "/home/u/target/sub".data,
       Ev.put "root/sub/b.txt".data "/home/u/target/sub/b.txt".data] := by
  refine ⟨?_, ?_, by decide⟩
  · exact upScan_walk rp lp t [] [] hr (by decide) ht (Or.inl (join_root_nil hr))
  · show downScan lp2 [] (Ev.statR rp2 :: downloadDirectory rp2 lp2 es) = true
    simp only [downScan]
    exact downScan_downloadDirectory lp2 rp2 lp2 es [] hl hes (Or.inl rfl)

theorem upload_download_parent_before_child_witness :
    wfRoot "/dst".data = true ∧
    wfTree (.node ["a.txt".data] [("sub".data, .node [] [])]) = true ∧
    wfRoot "/l".data = true ∧
    wfEntries [("x.txt".data, RNode.file), ("d".data, RNode.dir [])] = true ∧
    upScan "/dst".data []
      (upload (.dir (.node ["a.txt".data] [("sub".data, .node [] [])]))
        "root".data "/dst".data).1 = true ∧
    downScan "/l".data []
      (download (.ok (.dir [("x.txt".data, RNode.file), ("d".data, RNode.dir [])]))
        "/r".data "/l".data).1 = true := by
  have h := upload_download_parent_before_child "root".data "/dst".data "/r".data
    "/l".data (.node ["a.txt".data] [("sub".data, .node [] [])])
    [("x.txt".data, RNode.file), ("d".data, RNode.dir [])]
    (by decide) (by decide) (by decide) (by decide)
  exact ⟨by decide, by decide, by decide, by decide, h.1, h.2.1⟩

/-- The local directories visited below a list of named remote entries by
the walk of `_download_directory`, every directory node included whether or
not it contains files. -/
def visitedDirsEntries (rdir ldir : Str) : List (Str × RNode) → List Str
  | [] => []
  | (n, node) :: rest =>
    (match node with
     | .dir es2 =>
       pjoin ldir n :: visitedDirsEntries (join_remote [rdir, n]) (pjoin ldir n) es2
     | .file => []) ++ visitedDirsEntries rdir ldir rest

/-- All local directories visited by the walk of a remote directory
mirrored at `ldir`, the root included. -/
def visitedDirs (rdir ldir : Str) (es : List (Str × RNode)) : List Str :=
  ldir :: visitedDirsEntries rdir ldir es

/-- Every directory visited below a list of entries has its local
counterpart created in the per-entry download trace. -/
theorem mklocal_mem_visitedEntries (rdir ldir : Str) (es : List (Str × RNode)) :
    ∀ d ∈ visitedDirsEntries rdir ldir es, Ev.mklocal d ∈ downloadEntries rdir ldir es :=
  match es with
  | [] => by intro d hd; simp [visitedDirsEntries] at hd
  | (n, node) :: rest => by
    intro d hd
    cases node with
    | dir es2 =>
      simp only [visitedDirsEntries] at hd
      simp only [downloadEntries]
      rcases List.mem_append.mp hd with hdl | hdr
      · rcases List.mem_cons.mp hdl with hdh | hdt
        · subst hdh
          refine List.mem_append_left _ ?_
          rw [downloadDirectory]
          exact List.mem_cons_self _ _
        · refine List.mem_append_left _ ?_
          rw [downloadDirectory]
          exact List.mem_cons_of_mem _ (List.mem_cons_of_mem _
            (mklocal_mem_visitedEntries _ _ es2 d hdt))
      · exact List.mem_append_right _ (mklocal_mem_visitedEntries rdir ldir rest d hdr)
    | file =>
      simp only [visitedDirsEntries, List.nil_append] at hd
      simp only [downloadEntries]
      exact List.mem_append_right _ (mklocal_mem_visitedEntries rdir ldir rest d hd)

/-- Every directory visited by the remote walk has its local counterpart
created in the download trace. -/
theorem mklocal_mem_visited (rdir ldir : Str) (es : List (Str × RNode)) :
    ∀ d ∈ visitedDirs rdir ldir es, Ev.mklocal d ∈ downloadDirectory rdir ldir es := by
  intro d hd
  rw [visitedDirs] at hd
  rw [downloadDirectory]
  rcases List.mem_cons.mp hd with hdl | hdm
  · subst hdl
    exact List.mem_cons_self _ _
  · exact List.mem_cons_of_mem _ (List.mem_cons_of_mem _
      (mklocal_mem_visitedEntries rdir ldir es d hdm))

/-- C2: both upload and download materialize a destination directory for
every directory visited by the walker, including directories that contain
no files: the upload trace ensures the mapped remote directory of every
walked pair, and the download trace creates the mapped local directory of
every visited remote directory node. -/
theorem every_visited_directory_materialized (lp rp rp2 ldp : Str) (t : LTree)
    (es : List (Str × RNode)) :
    (∀ pr ∈ walkRel t [],
      Ev.ensure (join_remote [rp, pr.1]) ∈ (upload (.dir t) lp rp).1) ∧
    (∀ d ∈ visitedDirs rp2 ldp es,
      Ev.mklocal d ∈ (download (.ok (.dir es)) rp2 ldp).1) := by
  constructor
  · intro pr hpr
    show Ev.ensure (join_remote [rp, pr.1]) ∈ (walkRel t []).flatMap (uploadSeg rp lp)
    refine List.mem_flatMap.mpr ⟨pr, hpr, ?_⟩
    simp only [uploadSeg]
    exact List.mem_cons_self _ _
  · intro d hd
    show Ev.mklocal d ∈ Ev.statR rp2 :: downloadDirectory rp2 ldp es
    exact List.mem_cons_of_mem _ (mklocal_mem_visited rp2 ldp es d hd)

theorem every_visited_directory_materialized_witness :
    (("empty".data, ([] : List Str)) ∈ walkRel (.node [] [("empty".data, .node [] [])]) [] ∧
      Ev.ensure "/dst/empty".data ∈
        (upload (.dir (.node [] [("empty".data, .node [] [])]))
          "root".data "/dst".data).1) ∧
    ("/l/sub".data ∈ visitedDirs "/r".data "/l".data [("sub".data, RNode.dir [])] ∧
      Ev.mklocal "/l/sub".data ∈
        (download (.ok (.dir [("sub".data, RNode.dir [])])) "/r".data "/l".data).1) := by
  have h := every_visited_directory_materialized "root".data "/dst".data "/r".data
    "/l".data (.node [] [("empty".data, .node [] [])]) [("sub".data, RNode.dir [])]
  constructor
  · refine ⟨by decide, ?_⟩
    have h1 := h.1 ("empty".data, []) (by decide)
    have hj : join_remote ["/dst".data, ("empty".data, ([] : List Str)).1] =
        "/dst/empty".data := by decide
    rw [hj] at h1
    exact h1
  · refine ⟨by simp only [visitedDirs, visitedDirsEntries]; decide, ?_⟩
    exact h.2 "/l/sub".data (by simp only [visitedDirs, visitedDirsEntries]; decide)

/-- The three-way partition of `quicksort` is a permutation of the input. -/
theorem three_filter_perm {α : Type} [LinearOrder α] (l : List α) (p : α) :
    List.Perm
      (l.filter (fun x => decide (x < p)) ++ l.filter (fun x => decide (x = p)) ++
        l.filter (fun x => decide (x > p))) l := by
  induction l with
  | nil => rfl
  | cons a t ih =>
    rcases lt_trichotomy a p with h | h | h
    · simp only [List.filter_cons]
      rw [if_pos (by simp only [decide_eq_true_eq]; exact h),
        if_neg (by simp only [decide_eq_true_eq]; exact ne_of_lt h),
        if_neg (by simp only [gt_iff_lt, decide_eq_true_eq]; exact lt_asymm h)]
      simp only [List.cons_append]
      exact ih.cons a
    · simp only [List.filter_cons]
      rw [if_neg (by simp only [decide_eq_true_eq]; rw [h]; exact lt_irrefl p),
        if_pos (by simp only [decide_eq_true_eq]; exact h),
        if_neg (by simp only [gt_iff_lt, decide_eq_true_eq]; rw [h]; exact lt_irrefl p)]
      have ih' : List.Perm (t.filter (fun x => decide (x < p)) ++
          (t.filter (fun x => decide (x = p)) ++ t.filter (fun x => decide (x > p)))) t := by
        rw [← List.append_assoc]
        exact ih
      have hshape : t.filter (fun x => decide (x < p)) ++ (a :: t.filter (fun x => decide (x = p))) ++
          t.filter (fun x => decide (x > p)) =
          t.filter (fun x => decide (x < p)) ++ a :: (t.filter (fun x => decide (x = p)) ++
            t.filter (fun x => decide (x > p))) := by
        simp
      rw [hshape]
      exact List.perm_middle.trans (ih'.cons a)
    · simp only [List.filter_cons]
      rw [if_neg (by simp only [decide_eq_true_eq]; exact lt_asymm h),
        if_neg (by simp only [decide_eq_true_eq]; exact ne_of_gt h),
        if_pos (by simp only [gt_iff_lt, decide_eq_true_eq]; exact h)]
      exact List.perm_middle.trans (ih.cons a)

/-- The recursive case of `quicksort`, unfolded. -/
theorem quicksort_eq {α : Type} [LinearOrder α] (l : List α) (h : ¬ l.length ≤ 1) :
    quicksort l =
      quicksort (l.filter (fun x =>
        decide (x < l.get ⟨l.length / 2, Nat.div_lt_self (by omega) (by omega)⟩))) ++
      l.filter (fun x =>
        decide (x = l.get ⟨l.length / 2, Nat.div_lt_self (by omega) (by omega)⟩)) ++
      quicksort (l.filter (fun x =>
        decide (x > l.get ⟨l.length / 2, Nat.div_lt_self (by omega) (by omega)⟩))) := by
  rw [quicksort]
  rw [dif_neg h]

/-- `quicksort` returns a permutation of its input. -/
theorem quicksort_perm {α : Type} [LinearOrder α] (l : List α) :
    List.Perm (quicksort l) l := by
  by_cases h : l.length ≤ 1
  · rw [quicksort, dif_pos h]
  · rw [quicksort_eq l h]
    have hpm : l.get ⟨l.length / 2, Nat.div_lt_self (by omega) (by omega)⟩ ∈ l :=
      List.get_mem _ _ _
    have hL := quicksort_perm (l.filter (fun x =>
      decide (x < l.get ⟨l.length / 2, Nat.div_lt_self (by omega) (by omega)⟩)))
    have hR := quicksort_perm (l.filter (fun x =>
      decide (x > l.get ⟨l.length / 2, Nat.div_lt_self (by omega) (by omega)⟩)))
    exact ((hL.append (List.Perm.refl _)).append hR).trans (three_filter_perm l _)
termination_by l.length
decreasing_by
  · exact length_filter_lt_of_mem _ l _ hpm (by simp)
  · exact length_filter_lt_of_mem _ l _ hpm (by simp)

/-- `quicksort` returns a list sorted in non-decreasing order. -/
theorem quicksort_sorted {α : Type} [LinearOrder α] (l : List α) :
    (quicksort l).Sorted (· ≤ ·) := by
  by_cases h : l.length ≤ 1
  · rw [quicksort, dif_pos h]
    cases l with
    | nil => exact List.sorted_nil
    | cons a t =>
      cases t with
      | nil => exact List.sorted_singleton a
      | cons b t2 => simp at h
  · rw [quicksort_eq l h]
    have hpm : l.get ⟨l.length / 2, Nat.div_lt_self (by omega) (by omega)⟩ ∈ l :=
      List.get_mem _ _ _
    have hL := quicksort_sorted (l.filter (fun x =>
      decide (x < l.get ⟨l.length / 2, Nat.div_lt_self (by omega) (by omega)⟩)))
    have hR := quicksort_sorted (l.filter (fun x =>
      decide (x > l.get ⟨l.length / 2, Nat.div_lt_self (by omega) (by omega)⟩)))
    have hmemL : ∀ x ∈ quicksort (l.filter (fun y =>
        decide (y < l.get ⟨l.length / 2, Nat.div_lt_self (by omega) (by omega)⟩))),
        x < l.get ⟨l.length / 2, Nat.div_lt_self (by omega) (by omega)⟩ := by
      intro x hx
      have := (quicksort_perm _).mem_iff.mp hx
      have := (List.mem_filter.mp this).2
      simpa using this
    have hmemM : ∀ x ∈ l.filter (fun y =>
        decide (y = l.get ⟨l.length / 2, Nat.div_lt_self (by omega) (by omega)⟩)),
        x = l.get ⟨l.length / 2, Nat.div_lt_self (by omega) (by omega)⟩ := by
      intro x hx
      have := (List.mem_filter.mp hx).2
      simpa using this
    have hmemR : ∀ x ∈ quicksort (l.filter (fun y =>
        decide (y > l.get ⟨l.length / 2, Nat.div_lt_self (by omega) (by omega)⟩))),
        l.get ⟨l.length / 2, Nat.div_lt_self (by omega) (by omega)⟩ < x := by
      intro x hx
      have := (quicksort_perm _).mem_iff.mp hx
      have := (List.mem_filter.mp this).2
      simpa using this
    refine List.pairwise_append.mpr ⟨List.pairwise_append.mpr ⟨hL, ?_, ?_⟩, hR, ?_⟩
    · exact List.pairwise_of_forall_mem_list
        (fun a ha b hb => (hmemM a ha).symm ▸ (hmemM b hb).symm ▸ le_refl _)
    · exact fun a ha b hb => le_of_lt ((hmemM b hb).symm ▸ hmemL a ha)
    · intro a ha b hb
      rcases List.mem_append.mp ha with hal | ham
      · exact le_of_lt (lt_trans (hmemL a hal) (hmemR b hb))
      · exact le_of_lt ((hmemM a ham).symm ▸ hmemR b hb)
termination_by l.length
decreasing_by
  · exact length_filter_lt_of_mem _ l _ hpm (by simp)
  · exact length_filter_lt_of_mem _ l _ hpm (by simp)

/-- C9: `quicksort` returns a list sorted in non-decreasing order that is a
permutation (equal multiset) of its input; it is a pure function of the
input list, which therefore remains unchanged by the call. -/
theorem quicksort_sorted_perm {α : Type} [LinearOrder α] (l : List α) :
    (quicksort l).Sorted (· ≤ ·) ∧ List.Perm (quicksort l) l :=
  ⟨quicksort_sorted l, quicksort_perm l⟩

theorem length_swapL {α : Type} [Inhabited α] (l : List α) (i j : Nat) :
    (swapL l i j).length = l.length := by
  simp [swapL]

theorem getD_set_if {α : Type} [Inhabited α] (l : List α) (i j : Nat) (a : α) :
    (l.set i a).getD j default =
      if i = j ∧ i < l.length then a else l.getD j default := by
  rw [List.getD_eq_getElem?_getD, List.getElem?_set, List.getD_eq_getElem?_getD]
  by_cases h1 : i = j
  · subst h1
    by_cases h2 : i < l.length
    · rw [if_pos rfl, if_pos h2, if_pos ⟨rfl, h2⟩]
      rfl
    · rw [if_pos rfl, if_neg h2, if_neg (fun hc => h2 hc.2),
        List.getElem?_eq_none (by omega)]
  · rw [if_neg h1, if_neg (fun hc => h1 hc.1)]

theorem getD_swapL {α : Type} [Inhabited α] (l : List α) (i j m : Nat)
    (hi : i < l.length) (hj : j < l.length) :
    (swapL l i j).getD m default =
      if m = j then l.getD i default
      else if m = i then l.getD j default
      else l.getD m default := by
  unfold swapL
  rw [getD_set_if, getD_set_if]
  simp only [List.length_set]
  by_cases h1 : m = j
  · subst h1
    rw [if_pos ⟨rfl, hj⟩, if_pos rfl]
  · rw [if_neg (fun hc => h1 hc.1.symm)]
    by_cases h2 : m = i
    · subst h2
      rw [if_pos ⟨rfl, hi⟩, if_neg h1, if_pos rfl]
    · rw [if_neg (fun hc => h2 hc.1.symm), if_neg h1, if_neg h2]

theorem setD_cons_perm {α : Type} [Inhabited α] :
    ∀ (t : List α) (j : Nat) (a : α), j < t.length →
      List.Perm (t.getD j default :: t.set j a) (a :: t)
  | [], j, a, h => absurd h (by simp)
  | b :: t', 0, a, _ => by
    simp only [List.getD_cons_zero, List.set_cons_zero]
    exact List.Perm.swap a b t'
  | b :: t', j + 1, a, h => by
    simp only [List.getD_cons_succ, List.set_cons_succ]
    have ih := setD_cons_perm t' j a (by simpa using h)
    exact (List.Perm.swap b (t'.getD j default) (t'.set j a)).trans
      ((ih.cons b).trans (List.Perm.swap a b t'))

theorem swapL_perm {α : Type} [Inhabited α] :
    ∀ (l : List α) (i j : Nat), i < l.length → j < l.length →
      List.Perm (swapL l i j) l
  | [], _, _, hi, _ => absurd hi (by simp)
  | a :: t, 0, 0, _, _ => by
    show List.Perm (a :: t) (a :: t)
    exact List.Perm.refl _
  | a :: t, 0, j + 1, _, hj => by
    show List.Perm (t.getD j default :: t.set j a) (a :: t)
    exact setD_cons_perm t j a (by simpa using hj)
  | a :: t, i + 1, 0, hi, _ => by
    show List.Perm (t.getD i default :: t.set i a) (a :: t)
    exact setD_cons_perm t i a (by simpa using hi)
  | a :: t, i + 1, j + 1, hi, hj => by
    show List.Perm (a :: swapL t i j) (a :: t)
    exact (swapL_perm t i j (by simpa using hi) (by simpa using hj)).cons a

theorem partLoop_eq_swap {α : Type} [LinearOrder α] [Inhabited α] (pivot : α)
    (l : List α) (i : Int) (j high : Nat) (h1 : j < high)
    (h2 : l.getD j default ≤ pivot) :
    partLoop pivot l i j high =
      partLoop pivot (swapL l (i + 1).toNat j) (i + 1) (j + 1) high := by
  rw [partLoop, if_pos h1, if_pos h2]

theorem partLoop_eq_skip {α : Type} [LinearOrder α] [Inhabited α] (pivot : α)
    (l : List α) (i : Int) (j high : Nat) (h1 : j < high)
    (h2 : ¬ l.getD j default ≤ pivot) :
    partLoop pivot l i j high = partLoop pivot l i (j + 1) high := by
  rw [partLoop, if_pos h1, if_neg h2]

theorem partLoop_eq_done {α : Type} [LinearOrder α] [Inhabited α] (pivot : α)
    (l : List α) (i : Int) (j high : Nat) (h1 : ¬ j < high) :
    partLoop pivot l i j high = (l, i) := by
  rw [partLoop, if_neg h1]

/-- Functional specification of the partition loop: it permutes the list,
touches only positions in `(i, high)`, and on return keeps positions
`[b, i']` at most the pivot and positions `(i', high)` above the pivot. -/
theorem partLoop_spec {α : Type} [LinearOrder α] [Inhabited α] (pivot : α) (b : Nat)
    (l : List α) (i : Int) (j high : Nat)
    (hij : i < (j : Int)) (hbi : (b : Int) - 1 ≤ i) (hjh : j ≤ high)
    (hhl : high ≤ l.length)
    (hle : ∀ m : Nat, b ≤ m → (m : Int) ≤ i → l.getD m default ≤ pivot)
    (hgt : ∀ m : Nat, i < (m : Int) → m < j → pivot < l.getD m default) :
    (partLoop pivot l i j high).1.length = l.length ∧
    List.Perm (partLoop pivot l i j high).1 l ∧
    (∀ m : Nat, ((m : Int) ≤ i ∨ high ≤ m) →
      (partLoop pivot l i j high).1.getD m default = l.getD m default) ∧
    (∀ m : Nat, b ≤ m → (m : Int) ≤ (partLoop pivot l i j high).2 →
      (partLoop pivot l i j high).1.getD m default ≤ pivot) ∧
    (∀ m : Nat, (partLoop pivot l i j high).2 < (m : Int) → m < high →
      pivot < (partLoop pivot l i j high).1.getD m default) := by
  by_cases h1 : j < high
  · by_cases h2 : l.getD j default ≤ pivot
    · rw [partLoop_eq_swap pivot l i j high h1 h2]
      have haN : (i + 1).toNat < l.length := by omega
      have hjN : j < l.length := by omega
      have hget : ∀ m : Nat,
          (swapL l (i + 1).toNat j).getD m default =
            if m = j then l.getD (i + 1).toNat default
            else if m = (i + 1).toNat then l.getD j default
            else l.getD m default := fun m => getD_swapL l _ j m haN hjN
      have hlen' : (swapL l (i + 1).toNat j).length = l.length := length_swapL l _ j
      have hrec := partLoop_spec pivot b (swapL l (i + 1).toNat j) (i + 1) (j + 1) high
        (by omega) (by omega) (by omega) (by omega)
        (fun m hbm hmi => by
          rw [hget m]
          by_cases hmj : m = j
          · rw [if_pos hmj]
            have hjeq : (i + 1).toNat = j := by omega
            rw [hjeq]
            subst hmj
            exact h2
          · rw [if_neg hmj]
            by_cases hma : m = (i + 1).toNat
            · rw [if_pos hma]
              exact h2
            · rw [if_neg hma]
              exact hle m hbm (by omega))
        (fun m him hmj => by
          rw [hget m]
          by_cases hmj' : m = j
          · rw [if_pos hmj']
            exact hgt (i + 1).toNat (by omega) (by omega)
          · rw [if_neg hmj', if_neg (by omega)]
            exact hgt m (by omega) (by omega))
      obtain ⟨r1, r2, r3, r4, r5⟩ := hrec
      refine ⟨r1.trans hlen', r2.trans (swapL_perm l _ j haN hjN), ?_, r4, r5⟩
      intro m hm
      rw [r3 m (by omega), hget m, if_neg (by omega), if_neg (by omega)]
    · rw [partLoop_eq_skip pivot l i j high h1 h2]
      exact partLoop_spec pivot b l i (j + 1) high (by omega) hbi (by omega) hhl hle
        (fun m him hmj => by
          by_cases hmj' : m = j
          · subst hmj'
            exact lt_of_not_le h2
          · exact hgt m him (by omega))
  · rw [partLoop_eq_done pivot l i j high h1]
    exact ⟨rfl, List.Perm.refl l, fun m _ => rfl, fun m hbm hmi => hle m hbm hmi,
      fun m him hmh => hgt m him (by omega)⟩
termination_by high - j
decreasing_by
  · omega
  · omega

/-- Functional specification of `_partition`: it permutes the list, touches
only positions in `[low, high]`, and returns an index `k` in `[low, high]`
such that positions `[low, k)` are at most the value at `k` and positions
`(k, high]` are at least it. -/
theorem pyPartition_spec {α : Type} [LinearOrder α] [Inhabited α] (l : List α)
    (low high : Nat) (hlh : low ≤ high) (hhl : high < l.length) :
    (pyPartition l low high).1.length = l.length ∧
    List.Perm (pyPartition l low high).1 l ∧
    (∀ m : Nat, (m < low ∨ high < m) →
      (pyPartition l low high).1.getD m default = l.getD m default) ∧
    low ≤ (pyPartition l low high).2 ∧ (pyPartition l low high).2 ≤ high ∧
    (∀ m : Nat, low ≤ m → m < (pyPartition l low high).2 →
      (pyPartition l low high).1.getD m default ≤
        (pyPartition l low high).1.getD (pyPartition l low high).2 default) ∧
    (∀ m : Nat, (pyPartition l low high).2 < m → m ≤ high →
      (pyPartition l low high).1.getD (pyPartition l low high).2 default ≤
        (pyPartition l low high).1.getD m default) := by
  have hbounds := partLoop_snd_bounds (l.getD high default) l ((low : Int) - 1) low high hlh
  have hspec := partLoop_spec (l.getD high default) low l ((low : Int) - 1) low high
    (by omega) (by omega) hlh (by omega)
    (fun m hbm hmi => absurd hmi (by omega))
    (fun m him hmj => absurd hmj (by omega))
  obtain ⟨p1, p2, p3, p4, p5⟩ := hspec
  simp only [pyPartition]
  set L1 := (partLoop (l.getD high default) l ((low : Int) - 1) low high).1 with hL1
  set i2 := (partLoop (l.getD high default) l ((low : Int) - 1) low high).2 with hi2
  set k := (i2 + 1).toNat with hk
  have hkInt : (k : Int) = i2 + 1 := by omega
  have hklow : low ≤ k := by omega
  have hkhigh : k ≤ high := by omega
  have hkN : k < L1.length := by omega
  have hhN : high < L1.length := by omega
  have hgetswap : ∀ m : Nat, (swapL L1 k high).getD m default =
      if m = high then L1.getD k default
      else if m = k then L1.getD high default
      else L1.getD m default := fun m => getD_swapL L1 k high m hkN hhN
  have hpivhigh : L1.getD high default = l.getD high default :=
    p3 high (Or.inr (le_refl high))
  have hpk : (swapL L1 k high).getD k default = l.getD high default := by
    rw [hgetswap k]
    by_cases hkh : k = high
    · rw [if_pos hkh, hkh]
      exact hpivhigh
    · rw [if_neg hkh, if_pos rfl]
      exact hpivhigh
  refine ⟨(length_swapL L1 k high).trans p1,
    (swapL_perm L1 k high hkN hhN).trans p2, ?_, hklow, hkhigh, ?_, ?_⟩
  · intro m hm
    rw [hgetswap m, if_neg (by omega), if_neg (by omega)]
    exact p3 m (by omega)
  · intro m hm1 hm2
    rw [hpk, hgetswap m, if_neg (by omega), if_neg (by omega)]
    exact p4 m hm1 (by omega)
  · intro m hm1 hm2
    rw [hpk]
    by_cases hmh : m = high
    · subst hmh
      rw [hgetswap m, if_pos rfl]
      exact le_of_lt (p5 k (by omega) (by omega))
    · rw [hgetswap m, if_neg hmh, if_neg (by omega)]
      exact le_of_lt (p5 m (by omega) (by omega))

theorem take_eq_of_getD {α : Type} [Inhabited α] (l l' : List α) (n : Nat)
    (hlen : l'.length = l.length)
    (h : ∀ m : Nat, m < n → l'.getD m default = l.getD m default) :
    l'.take n = l.take n := by
  apply List.ext_getElem
  · simp [hlen]
  · intro m h1 h2
    rw [List.getElem_take, List.getElem_take]
    have hm : m < n := by
      simp only [List.length_take] at h1
      omega
    have hml : m < l.length := by
      simp only [List.length_take] at h2
      omega
    have hgd := h m hm
    rwa [List.getD_eq_getElem _ _ (by omega), List.getD_eq_getElem _ _ hml] at hgd

theorem drop_eq_of_getD {α : Type} [Inhabited α] (l l' : List α) (n : Nat)
    (hlen : l'.length = l.length)
    (h : ∀ m : Nat, n ≤ m → l'.getD m default = l.getD m default) :
    l'.drop n = l.drop n := by
  apply List.ext_getElem
  · simp [hlen]
  · intro m h1 h2
    rw [List.getElem_drop, List.getElem_drop]
    have hm1 : n + m < l'.length := by
      simp only [List.length_drop] at h1
      omega
    have hm2 : n + m < l.length := by
      simp only [List.length_drop] at h2
      omega
    have hgd := h (n + m) (by omega)
    rwa [List.getD_eq_getElem _ _ hm1, List.getD_eq_getElem _ _ hm2] at hgd

/-- A permutation that fixes every position outside `[lo, hi)` pointwise
restricts to a permutation of the segment `[lo, hi)`. -/
theorem seg_perm {α : Type} [Inhabited α] (l l' : List α) (lo hi : Nat)
    (hp : List.Perm l' l) (hlo : lo ≤ hi) (hhi : hi ≤ l.length)
    (hout : ∀ m : Nat, m < lo ∨ hi ≤ m → l'.getD m default = l.getD m default) :
    List.Perm ((l'.take hi).drop lo) ((l.take hi).drop lo) := by
  have hlen : l'.length = l.length := hp.length_eq
  have hmin : lo ⊓ hi = lo := by
    simp [Nat.min_def]
    omega
  have hdec : ∀ t : List α, t = (t.take lo ++ (t.take hi).drop lo) ++ t.drop hi := by
    intro t
    conv_lhs => rw [← List.take_append_drop hi t]
    congr 1
    conv_lhs => rw [← List.take_append_drop lo (t.take hi)]
    congr 1
    rw [List.take_take, hmin]
  have h1' := hdec l'
  have h1 := hdec l
  rw [take_eq_of_getD l l' lo hlen (fun m hm => hout m (Or.inl hm)),
    drop_eq_of_getD l l' hi hlen (fun m hm => hout m (Or.inr hm))] at h1'
  have hp2 : List.Perm ((l.take lo ++ (l'.take hi).drop lo) ++ l.drop hi)
      ((l.take lo ++ (l.take hi).drop lo) ++ l.drop hi) := by
    rw [← h1', ← h1]
    exact hp
  rw [List.append_assoc, List.append_assoc] at hp2
  have hp3 := (List.perm_append_left_iff (l.take lo)).mp hp2
  exact (List.perm_append_right_iff (l.drop hi)).mp hp3

/-- A position of the segment `[lo, hi)` contributes its value to the
extracted segment. -/
theorem getD_mem_seg {α : Type} [Inhabited α] (l : List α) (lo hi m : Nat)
    (h1 : lo ≤ m) (h2 : m < hi) (h3 : hi ≤ l.length) :
    l.getD m default ∈ (l.take hi).drop lo := by
  have hm : m - lo < ((l.take hi).drop lo).length := by
    simp only [List.length_drop, List.length_take]
    omega
  refine List.mem_iff_getElem.mpr ⟨m - lo, hm, ?_⟩
  rw [List.getElem_drop, List.getElem_take, List.getD_eq_getElem _ _ (by omega)]
  congr 1
  omega

/-- A pointwise property of the positions `[lo, hi)` holds for every element
of the extracted segment. -/
theorem seg_forall {α : Type} [Inhabited α] (l : List α) (lo hi : Nat) (P : α → Prop)
    (h : ∀ m : Nat, lo ≤ m → m < hi → P (l.getD m default)) :
    ∀ x ∈ (l.take hi).drop lo, P x := by
  intro x hx
  obtain ⟨k, hk, hkx⟩ := List.mem_iff_getElem.mp hx
  have hk2 : lo + k < hi ∧ lo + k < l.length := by
    simp only [List.length_drop, List.length_take] at hk
    omega
  rw [List.getElem_drop, List.getElem_take] at hkx
  rw [← hkx, ← List.getD_eq_getElem l default hk2.2]
  exact h (lo + k) (by omega) hk2.1

theorem qsiAux_eq {α : Type} [LinearOrder α] [Inhabited α] (l : List α) (low : Nat)
    (high : Int) (h : (low : Int) < high) :
    qsiAux l low high =
      qsiAux (qsiAux (pyPartition l low high.toNat).1 low
          (((pyPartition l low high.toNat).2 : Int) - 1))
        ((pyPartition l low high.toNat).2 + 1) high := by
  rw [qsiAux, dif_pos h]

theorem qsiAux_eq_base {α : Type} [LinearOrder α] [Inhabited α] (l : List α) (low : Nat)
    (high : Int) (h : ¬ (low : Int) < high) : qsiAux l low high = l := by
  rw [qsiAux, dif_neg h]

/-- Functional specification of the recursive body of `quicksort_inplace`:
it permutes the list, touches only positions in `[low, high]`, and leaves
that range sorted. -/
theorem qsiAux_spec {α : Type} [LinearOrder α] [Inhabited α] (l : List α) (low : Nat)
    (high : Int) (hhigh : high < (l.length : Int)) :
    (qsiAux l low high).length = l.length ∧
    List.Perm (qsiAux l low high) l ∧
    (∀ m : Nat, ((m : Int) < (low : Int) ∨ high < (m : Int)) →
      (qsiAux l low high).getD m default = l.getD m default) ∧
    (∀ m1 m2 : Nat, low ≤ m1 → m1 ≤ m2 → (m2 : Int) ≤ high →
      (qsiAux l low high).getD m1 default ≤ (qsiAux l low high).getD m2 default) := by
  by_cases h : (low : Int) < high
  case neg =>
    rw [qsiAux_eq_base l low high h]
    refine ⟨rfl, List.Perm.refl l, fun m _ => rfl, ?_⟩
    intro m1 m2 hm1 hm12 hm2
    have heq : m1 = m2 := by omega
    rw [heq]
  case pos =>
    rw [qsiAux_eq l low high h]
    have hhl : high.toNat < l.length := by omega
    obtain ⟨q1, q2, q3, q4, q5, q6, q7⟩ :=
      pyPartition_spec l low high.toNat (by omega) hhl
    set P := (pyPartition l low high.toNat).1 with hP
    set p := (pyPartition l low high.toNat).2 with hp
    have hrecA := qsiAux_spec P low ((p : Int) - 1) (by rw [q1]; omega)
    set A := qsiAux P low ((p : Int) - 1) with hA
    obtain ⟨a1, a2, a3, a4⟩ := hrecA
    have hrecB := qsiAux_spec A (p + 1) high (by rw [a1, q1]; exact hhigh)
    set B := qsiAux A (p + 1) high with hB
    obtain ⟨b1, b2, b3, b4⟩ := hrecB
    have hBp : B.getD p default = P.getD p default := by
      rw [b3 p (by omega), a3 p (by omega)]
    have hAle : ∀ m : Nat, low ≤ m → m < p → A.getD m default ≤ P.getD p default := by
      intro m hm1 hm2
      have hsp := seg_perm P A low p a2 (by omega) (by rw [q1]; omega)
        (fun m' hm' => a3 m' (by omega))
      have hmem : A.getD m default ∈ (A.take p).drop low :=
        getD_mem_seg A low p m hm1 hm2 (by rw [a1, q1]; omega)
      have hmem2 : A.getD m default ∈ (P.take p).drop low := hsp.mem_iff.mp hmem
      exact seg_forall P low p (fun x => x ≤ P.getD p default)
        (fun m' hm1' hm2' => q6 m' hm1' hm2') _ hmem2
    have hBge : ∀ m : Nat, p < m → (m : Int) ≤ high →
        P.getD p default ≤ B.getD m default := by
      intro m hm1 hm2
      have hsp := seg_perm A B (p + 1) (high.toNat + 1) b2 (by omega)
        (by rw [a1, q1]; omega) (fun m' hm' => b3 m' (by omega))
      have hmem : B.getD m default ∈ (B.take (high.toNat + 1)).drop (p + 1) :=
        getD_mem_seg B (p + 1) (high.toNat + 1) m (by omega) (by omega)
          (by rw [b1, a1, q1]; omega)
      have hmem2 : B.getD m default ∈ (A.take (high.toNat + 1)).drop (p + 1) :=
        hsp.mem_iff.mp hmem
      refine seg_forall A (p + 1) (high.toNat + 1)
        (fun x => P.getD p default ≤ x) (fun m' hm1' hm2' => ?_) _ hmem2
      rw [a3 m' (by omega)]
      exact q7 m' (by omega) (by omega)
    refine ⟨b1.trans (a1.trans q1), b2.trans (a2.trans q2), ?_, ?_⟩
    · intro m hm
      rw [b3 m (by omega), a3 m (by omega), q3 m (by omega)]
    · intro m1 m2 hm1 hm12 hm2
      rcases Nat.lt_trichotomy m2 p with hc | hc | hc
      · rw [b3 m1 (by omega), b3 m2 (by omega)]
        exact a4 m1 m2 hm1 hm12 (by omega)
      · subst hc
        rcases Nat.lt_or_ge m1 p with hc2 | hc2
        · rw [b3 m1 (by omega), hBp]
          exact hAle m1 hm1 hc2
        · have heq : m1 = p := by omega
          rw [heq]
      · rcases Nat.lt_trichotomy m1 p with hd | hd | hd
        · rw [b3 m1 (by omega)]
          exact le_trans (hAle m1 hm1 hd) (hBge m2 hc hm2)
        · subst hd
          rw [hBp]
          exact hBge m2 hc hm2
        · exact b4 m1 m2 (by omega) hm12 hm2
    termination_by (high + 1 - (low : Int)).toNat
    decreasing_by
      · omega
      · omega

/-- `quicksort_inplace` sorts: the final list is a sorted permutation of
the input. -/
theorem quicksort_inplace_sorted_perm {α : Type} [LinearOrder α] [Inhabited α]
    (l : List α) :
    (quicksort_inplace l).Sorted (· ≤ ·) ∧ List.Perm (quicksort_inplace l) l := by
  unfold quicksort_inplace
  have hs := qsiAux_spec l 0 ((l.length : Int) - 1) (by omega)
  obtain ⟨s1, s2, _, s4⟩ := hs
  constructor
  · apply List.pairwise_iff_getElem.mpr
    intro i j hi hj hij
    have hj2 : (j : Int) ≤ (l.length : Int) - 1 := by
      rw [s1] at hj
      omega
    have hle := s4 i j (Nat.zero_le _) (le_of_lt hij) hj2
    rwa [List.getD_eq_getElem _ _ hi, List.getD_eq_getElem _ _ hj] at hle
  · exact s2

/-- C10: the two quicksort variants agree: for every list, the pure
`quicksort` equals the contents left by `quicksort_inplace`, and
`quicksort_inplace` is total (it terminates on every list, being defined by
well-founded recursion on the size of the index range). -/
theorem quicksort_agrees_inplace {α : Type} [LinearOrder α] [Inhabited α]
    (l : List α) : quicksort l = quicksort_inplace l :=
  List.eq_of_perm_of_sorted
    ((quicksort_perm l).trans (quicksort_inplace_sorted_perm l).2.symm)
    (quicksort_sorted l) (quicksort_inplace_sorted_perm l).1
